import Mathlib

/-!
Verification of the PII detection and sanitization engine of the
smart_email repository (`src/validators/pii_validator.py`).

The engine is embedded shallowly:

* a small regular-expression language `RE` covering exactly the constructs
  used by the six patterns in `PIIValidator.PATTERNS` (character classes,
  concatenation, alternation, greedy option, greedy counted repetition of a
  class, word boundary `\b`, capture groups);
* `enum` lists every way a pattern can match a prefix of the input, in the
  backtracking priority order of Python's `re` module (greedy first,
  left alternative first), so `(enum ...).head?` is the match `re` selects
  at a given position;
* `reFindAll` and `reSub` reproduce `re.findall` / `re.sub` scanning:
  leftmost match, continue after the end of each non-empty match;
* `detectPatterns`, `validate`, `mask`, `sanitize` are translated line by
  line from `PIIValidator._detect_patterns`, `validate`, `_mask` and
  `sanitize`.  Floats (`confidence`, `threshold`) are modelled as rationals;
  the only float values involved are 0.0, 1.0 and the configured threshold.

`sanitize` returns `Option Str`: `none` models the `IndexError` Python would
raise if an email match did not contain `'@'` (`.split('@')[1]`); it is
proved unreachable.
-/

namespace SmartEmail

/-- Strings are modelled as lists of characters. -/
abbrev Str := List Char

/-- Python's `\w` (ASCII): letters, digits, underscore. -/
def isWordChar (c : Char) : Bool := c.isAlpha || c.isDigit || c = '_'

/-- Word-character test on an optional character; `none` (string edge) counts as non-word. -/
def wordOpt : Option Char → Bool
  | none => false
  | some c => isWordChar c

/-- Python's `\b`: a word boundary holds between the previous character `prev`
and the rest of the input `s` iff exactly one side is a word character. -/
def atBoundary (prev : Option Char) (s : Str) : Bool :=
  wordOpt prev != wordOpt s.head?

/-- Length of the longest prefix of `s` consisting of characters satisfying `p`. -/
def countLeading (p : Char → Bool) : Str → Nat
  | [] => 0
  | c :: cs => if p c then countLeading p cs + 1 else 0

/-- The list `[m, m-1, ..., lo]` (empty when `m < lo`): candidate lengths for a
greedy counted repetition, longest first. -/
def downFrom (m lo : Nat) : List Nat :=
  (List.range (m + 1 - lo)).map (fun i => m - i)

/-- Regular-expression syntax: exactly the constructs used by the six
patterns of `PIIValidator.PATTERNS`. -/
inductive RE where
  | eps : RE
  | wb : RE
  | cls (p : Char → Bool) : RE
  | grp (r : RE) : RE
  | seq (a b : RE) : RE
  | alt (a b : RE) : RE
  | opt (a : RE) : RE
  | repGE (p : Char → Bool) (lo : Nat) : RE
  | repRange (p : Char → Bool) (lo hi : Nat) : RE

/-- All ways `r` can match a prefix of `s`, as triples
(consumed characters, captured groups in order, remaining input), listed in
the backtracking priority order of Python's `re` module: greedy repetitions
longest first, left alternative first, optional part present first.
`prev` is the character immediately before the current position (for `\b`). -/
def enum : RE → Option Char → Str → List (Str × List Str × Str)
  | .eps, _, s => [([], [], s)]
  | .wb, prev, s => if atBoundary prev s then [([], [], s)] else []
  | .cls _, _, [] => []
  | .cls p, _, c :: cs => if p c then [([c], [], cs)] else []
  | .grp r, prev, s =>
      (enum r prev s).map (fun t => (t.1, t.2.1 ++ [t.1], t.2.2))
  | .seq a b, prev, s =>
      (enum a prev s).flatMap (fun t =>
        (enum b (if t.1.isEmpty then prev else t.1.getLast?) t.2.2).map
          (fun u => (t.1 ++ u.1, t.2.1 ++ u.2.1, u.2.2)))
  | .alt a b, prev, s => enum a prev s ++ enum b prev s
  | .opt a, prev, s => enum a prev s ++ [([], [], s)]
  | .repGE p lo, _, s =>
      (downFrom (countLeading p s) lo).map (fun k => (s.take k, [], s.drop k))
  | .repRange p lo hi, _, s =>
      (downFrom (min (countLeading p s) hi) lo).map (fun k => (s.take k, [], s.drop k))

/-- The match Python's `re` selects when anchored at the current position
(first success in backtracking order), or `none`. -/
def reMatch (r : RE) (prev : Option Char) (s : Str) : Option (Str × List Str × Str) :=
  (enum r prev s).head?

/-- Scanning core of `re.findall`: try a match at every position from left to
right; on a non-empty match record it and continue right after it, otherwise
advance one character.  `fuel` is structural; `s.length + 1` always suffices. -/
def findAllGo (r : RE) : Nat → Option Char → Str → List (Str × List Str)
  | 0, _, _ => []
  | fuel + 1, prev, s =>
    match reMatch r prev s with
    | some (c, g, rest) =>
        if c.isEmpty then
          match s with
          | [] => [(c, g)]
          | d :: ds => (c, g) :: findAllGo r fuel (some d) ds
        else
          (c, g) :: findAllGo r fuel c.getLast? rest
    | none =>
        match s with
        | [] => []
        | d :: ds => findAllGo r fuel (some d) ds

/-- `re.findall(pattern, s)`, returning for each match the matched characters
and the captured groups. -/
def reFindAll (r : RE) (s : Str) : List (Str × List Str) :=
  findAllGo r (s.length + 1) none s

/-- Scanning core of `re.sub`: same scan as `findAllGo`, splicing in the
replacement produced by `repl` for each match.  A `none` from `repl` models an
exception escaping from a replacement callback. -/
def subGo (r : RE) (repl : Str → List Str → Option Str) :
    Nat → Option Char → Str → Option Str
  | 0, _, _ => none
  | fuel + 1, prev, s =>
    match reMatch r prev s with
    | some (c, g, rest) =>
        (repl c g).bind (fun rep =>
          if c.isEmpty then
            match s with
            | [] => some rep
            | d :: ds => (subGo r repl fuel (some d) ds).map (fun t => rep ++ d :: t)
          else
            (subGo r repl fuel c.getLast? rest).map (fun t => rep ++ t))
    | none =>
        match s with
        | [] => some []
        | d :: ds => (subGo r repl fuel (some d) ds).map (fun t => d :: t)

/-- `re.sub(pattern, repl, s)`. -/
def reSub (r : RE) (repl : Str → List Str → Option Str) (s : Str) : Option Str :=
  subGo r repl (s.length + 1) none s

/-! ### The six patterns of `PIIValidator.PATTERNS`

All patterns are compiled with `re.IGNORECASE` in `_detect_patterns`, and the
`email`/`ip_address`/`address` patterns also in `sanitize`; the flag only
affects the alphabetic parts, so it is baked into the character classes and
the case-insensitive literals below.  (`sanitize` compiles the digit-only
`phone`/`ssn`/`credit_card` patterns without the flag; the flag is irrelevant
for them.) -/

/-- `[A-Za-z0-9._%+-]` (email local part). -/
def emailLocalCls (c : Char) : Bool :=
  c.isAlpha || c.isDigit || c = '.' || c = '_' || c = '%' || c = '+' || c = '-'

/-- `[A-Za-z0-9.-]` (email domain). -/
def emailDomainCls (c : Char) : Bool :=
  c.isAlpha || c.isDigit || c = '.' || c = '-'

/-- `[A-Z|a-z]` (email final label; note the literal `|` inside the class). -/
def emailLabelCls (c : Char) : Bool := c.isAlpha || c = '|'

/-- `[0-9]` / `\d`. -/
def digitCls (c : Char) : Bool := c.isDigit

/-- `[-.]`. -/
def dashDotCls (c : Char) : Bool := c = '-' || c = '.'

/-- Python's `\s` (ASCII). -/
def pySpaceCls (c : Char) : Bool :=
  c = ' ' || c = '\t' || c = '\n' || c = '\r' || c = '\x0b' || c = '\x0c'

/-- `[A-Za-z]`. -/
def alphaCls (c : Char) : Bool := c.isAlpha

/-- Single literal character. -/
def lit (c : Char) : RE := .cls (fun d => d = c)

/-- Case-insensitive literal word (for the street-type keywords under
`re.IGNORECASE`). -/
def ciLit (w : Str) : RE :=
  w.foldr (fun c r => .seq (.cls (fun d => d.toLower = c.toLower)) r) .eps

/-- `'email': \b[A-Za-z0-9._%+-]+@[A-Za-z0-9.-]+\.[A-Z|a-z]{2,}\b` -/
def emailRE : RE :=
  .seq .wb (.seq (.repGE emailLocalCls 1) (.seq (lit '@')
    (.seq (.repGE emailDomainCls 1) (.seq (lit '.')
      (.seq (.repGE emailLabelCls 2) .wb)))))

/-- `'phone': \b(?:\+?1[-.]?)?\(?([0-9]{3})\)?[-.]?([0-9]{3})[-.]?([0-9]{4})\b` -/
def phoneRE : RE :=
  .seq .wb
   (.seq (.opt (.seq (.opt (lit '+')) (.seq (lit '1') (.opt (.cls dashDotCls)))))
    (.seq (.opt (lit '('))
     (.seq (.grp (.repRange digitCls 3 3))
      (.seq (.opt (lit ')'))
       (.seq (.opt (.cls dashDotCls))
        (.seq (.grp (.repRange digitCls 3 3))
         (.seq (.opt (.cls dashDotCls))
          (.seq (.grp (.repRange digitCls 4 4)) .wb))))))))

/-- `'ssn': \b\d{3}-\d{2}-\d{4}\b` -/
def ssnRE : RE :=
  .seq .wb (.seq (.repRange digitCls 3 3) (.seq (lit '-')
    (.seq (.repRange digitCls 2 2) (.seq (lit '-')
      (.seq (.repRange digitCls 4 4) .wb)))))

/-- `'credit_card': \b\d{4}[-\s]?\d{4}[-\s]?\d{4}[-\s]?\d{4}\b` -/
def cardSepCls (c : Char) : Bool := c = '-' || pySpaceCls c

def cardRE : RE :=
  .seq .wb (.seq (.repRange digitCls 4 4) (.seq (.opt (.cls cardSepCls))
    (.seq (.repRange digitCls 4 4) (.seq (.opt (.cls cardSepCls))
      (.seq (.repRange digitCls 4 4) (.seq (.opt (.cls cardSepCls))
        (.seq (.repRange digitCls 4 4) .wb)))))))

/-- `'ip_address': \b\d{1,3}\.\d{1,3}\.\d{1,3}\.\d{1,3}\b` -/
def ipRE : RE :=
  .seq .wb (.seq (.repRange digitCls 1 3) (.seq (lit '.')
    (.seq (.repRange digitCls 1 3) (.seq (lit '.')
      (.seq (.repRange digitCls 1 3) (.seq (lit '.')
        (.seq (.repRange digitCls 1 3) .wb)))))))

/-- `(?:Street|St|Avenue|Ave|Road|Rd|Boulevard|Blvd|Lane|Ln|Drive|Dr)`,
case-insensitive, alternatives in source order. -/
def streetKindRE : RE :=
  .alt (ciLit "Street".data) (.alt (ciLit "St".data) (.alt (ciLit "Avenue".data)
    (.alt (ciLit "Ave".data) (.alt (ciLit "Road".data) (.alt (ciLit "Rd".data)
      (.alt (ciLit "Boulevard".data) (.alt (ciLit "Blvd".data)
        (.alt (ciLit "Lane".data) (.alt (ciLit "Ln".data)
          (.alt (ciLit "Drive".data) (ciLit "Dr".data)))))))))))

/-- `'address': \b\d+\s+[A-Za-z]+\s+(?:Street|...|Dr)\b` -/
def addressRE : RE :=
  .seq .wb (.seq (.repGE digitCls 1) (.seq (.repGE pySpaceCls 1)
    (.seq (.repGE alphaCls 1) (.seq (.repGE pySpaceCls 1)
      (.seq streetKindRE .wb)))))

/-- `PIIValidator.PATTERNS`: fixed registry, insertion order of the source dict. -/
def PATTERNS : List (String × RE) :=
  [("email", emailRE), ("phone", phoneRE), ("ssn", ssnRE),
   ("credit_card", cardRE), ("ip_address", ipRE), ("address", addressRE)]

/-! ### `PIIValidator` -/

/-- `PIIValidator._mask`: `'***'` for values of length ≤ 4, else first two
characters, `'***'`, last two characters. -/
def mask (v : Str) : Str :=
  if v.length ≤ 4 then "***".data
  else v.take 2 ++ "***".data ++ v.drop (v.length - 2)

/-- `'-'.join(groups)`. -/
def joinDash (gs : List Str) : Str :=
  (gs.intersperse "-".data).flatten

/-- Rendering of one pattern's `re.findall` result inside
`PIIValidator._detect_patterns`: Python checks `isinstance(matches[0], tuple)`
(true exactly when the pattern has at least two capture groups, as `phone`
has) and renders each match either as its groups joined by `'-'`, or as the
masked whole match. -/
def renderMatches (piiType : String) (ms : List (Str × List Str)) :
    List (String × Str) :=
  match ms with
  | [] => []
  | m0 :: _ =>
    if 2 ≤ m0.2.length then
      ms.map (fun m => (piiType, ("Found " ++ piiType ++ ": ").data ++ joinDash m.2))
    else
      ms.map (fun m => (piiType, ("Found " ++ piiType ++ ": ").data ++ mask m.1))

/-- `PIIValidator._detect_patterns`: run every detector over the content in
registry order and collect `(pii_type, detail)` pairs, one per match. -/
def detectPatterns (content : Str) : List (String × Str) :=
  PATTERNS.flatMap (fun pr => renderMatches pr.1 (reFindAll pr.2 content))

/-- `PIIDetectionResult` (pydantic model).  `confidence` is modelled as a
rational; the source only ever produces 0.0 or 1.0. -/
structure PIIDetectionResult where
  has_pii : Bool
  pii_types : List String
  confidence : ℚ
  details : List Str
  safe_to_send : Bool
deriving DecidableEq, Repr

/-- `PIIValidator` configuration: `enabled = ENABLE_PII_VALIDATION`,
`threshold = PII_THRESHOLD` (default 0.8), fixed at construction. -/
structure PIIValidator where
  enabled : Bool
  threshold : ℚ

/-- `PIIValidator.validate`. -/
def validate (v : PIIValidator) (content : Str) : PIIDetectionResult :=
  if !v.enabled then
    { has_pii := false, pii_types := [], confidence := 1,
      details := [], safe_to_send := true }
  else
    let detected := detectPatterns content
    let has_pii : Bool := decide (0 < detected.length)
    let confidence : ℚ := if detected.isEmpty then 0 else 1
    let safe_to_send : Bool := !has_pii || decide (confidence < v.threshold)
    { has_pii := has_pii, pii_types := detected.map (fun d => d.1),
      confidence := confidence, details := detected.map (fun d => d.2),
      safe_to_send := safe_to_send }

/-! ### `PIIValidator.sanitize` -/

/-- Python's `str.split(sep)` for a one-character separator: split at every
occurrence, keeping empty parts. -/
def pySplit (sep : Char) : Str → List Str
  | [] => [[]]
  | c :: cs =>
    if c = sep then [] :: pySplit sep cs
    else
      match pySplit sep cs with
      | [] => [[c]]
      | p :: ps => (c :: p) :: ps

/-- The email replacement callback
`lambda m: '[EMAIL_REDACTED]@' + m.group(0).split('@')[1]`;
`none` models the `IndexError` raised when the match has no `'@'`. -/
def emailRepl (m : Str) (_gs : List Str) : Option Str :=
  ((pySplit '@' m).get? 1).map (fun dom => "[EMAIL_REDACTED]@".data ++ dom)

/-- Python's `str.upper()` on the ASCII category names. -/
def pyUpper (s : String) : String := ⟨s.data.map Char.toUpper⟩

/-- One iteration of the loop body of `PIIValidator.sanitize` for category
`piiType`: the category-specific `re.sub` over the current text. -/
def sanitizePass (piiType : String) (r : RE) (content : Str) : Option Str :=
  if piiType = "email" then reSub r emailRepl content
  else if piiType = "phone" then
    reSub r (fun _ _ => some "[PHONE_REDACTED]".data) content
  else if piiType = "ssn" then
    reSub r (fun _ _ => some "[SSN_REDACTED]".data) content
  else if piiType = "credit_card" then
    reSub r (fun _ _ => some "[CARD_REDACTED]".data) content
  else
    reSub r (fun _ _ => some ("[" ++ pyUpper piiType ++ "_REDACTED]").data) content

/-- `PIIValidator.sanitize`: fold the per-category passes over the registry in
order, each pass operating on the output of the previous one. -/
def sanitize (content : Str) : Option Str :=
  PATTERNS.foldl (fun acc pr => acc.bind (sanitizePass pr.1 pr.2)) (some content)

/-- Modelled from the spec (§3, §4.3): `sanitize` as the explicit sequential
composition of the six per-category find-and-replace passes in the fixed
registry order email, phone, ssn, credit_card, ip_address, address, each pass
running on the output of the previous pass, with the spec's fixed per-category
redaction tokens and the domain-preserving email rule. -/
def sanitizeSpecComposition (content : Str) : Option Str :=
  ((((((some content).bind
      (reSub emailRE emailRepl)).bind
      (reSub phoneRE (fun _ _ => some "[PHONE_REDACTED]".data))).bind
      (reSub ssnRE (fun _ _ => some "[SSN_REDACTED]".data))).bind
      (reSub cardRE (fun _ _ => some "[CARD_REDACTED]".data))).bind
      (reSub ipRE (fun _ _ => some "[IP_ADDRESS_REDACTED]".data))).bind
      (reSub addressRE (fun _ _ => some "[ADDRESS_REDACTED]".data))

/-- Whether `hay` starts with `needle`. -/
def leadsWith : Str → Str → Bool
  | [], _ => true
  | _ :: _, [] => false
  | n :: ns, h :: hs => n = h && leadsWith ns hs

/-- Python's substring test `needle in hay`. -/
def hasSub (needle : Str) : Str → Bool
  | [] => leadsWith needle []
  | h :: t => leadsWith needle (h :: t) || hasSub needle t

/-- The input contains a substring matched by the email pattern: a decomposition
into a prefix, a non-empty local part over `[A-Za-z0-9._%+-]`, `'@'`, a
non-empty domain over `[A-Za-z0-9.-]`, `'.'`, a final label of two or more
characters over `[A-Z|a-z]`, and a suffix, with word boundaries at both ends. -/
def ContainsEmailMatch (s : Str) : Prop :=
  ∃ pre loc dom lab post : Str,
    s = pre ++ (loc ++ '@' :: (dom ++ '.' :: lab)) ++ post ∧
    loc ≠ [] ∧ loc.all emailLocalCls = true ∧
    dom ≠ [] ∧ dom.all emailDomainCls = true ∧
    2 ≤ lab.length ∧ lab.all emailLabelCls = true ∧
    atBoundary pre.getLast? ((loc ++ '@' :: (dom ++ '.' :: lab)) ++ post) = true ∧
    atBoundary lab.getLast? post = true


/-! ### Helper lemmas about the matcher -/

theorem mem_of_head?_eq_some {α : Type} {l : List α} {a : α}
    (h : l.head? = some a) : a ∈ l := by
  cases l with
  | nil => simp at h
  | cons x xs => simp only [List.head?_cons, Option.some.injEq] at h; simp [h]

theorem countLeading_le_length (p : Char → Bool) : ∀ s : Str, countLeading p s ≤ s.length := by
  intro s
  induction s with
  | nil => simp [countLeading]
  | cons c cs ih =>
    simp only [countLeading, List.length_cons]
    split <;> omega

theorem length_le_countLeading_append {p : Char → Bool} :
    ∀ {c : Str} (r : Str), c.all p → c.length ≤ countLeading p (c ++ r) := by
  intro c
  induction c with
  | nil => intro r _; simp
  | cons x xs ih =>
    intro r hall
    simp only [List.all_cons, Bool.and_eq_true] at hall
    simp only [List.cons_append, countLeading, hall.1, if_true, List.length_cons]
    exact Nat.succ_le_succ (ih r hall.2)

theorem all_take_of_le_countLeading {p : Char → Bool} :
    ∀ {s : Str} {k : Nat}, k ≤ countLeading p s → (s.take k).all p := by
  intro s
  induction s with
  | nil => intro k _; simp
  | cons c cs ih =>
    intro k hk
    cases k with
    | zero => simp
    | succ k' =>
      simp only [countLeading] at hk
      by_cases hc : p c
      · simp only [hc, if_true] at hk
        simp only [List.take_succ_cons, List.all_cons, hc, Bool.true_and]
        exact ih (Nat.le_of_succ_le_succ hk)
      · simp [hc] at hk


theorem mem_downFrom {m lo k : Nat} (h1 : lo ≤ k) (h2 : k ≤ m) : k ∈ downFrom m lo := by
  simp only [downFrom, List.mem_map, List.mem_range]
  exact ⟨m - k, by omega, by omega⟩

theorem of_mem_downFrom {m lo k : Nat} (h : k ∈ downFrom m lo) : lo ≤ k ∧ k ≤ m := by
  simp only [downFrom, List.mem_map, List.mem_range] at h
  obtain ⟨i, hi, rfl⟩ := h
  omega

theorem enum_append : ∀ (r : RE) (prev : Option Char) (s : Str)
    {c : Str} {g : List Str} {rest : Str},
    (c, g, rest) ∈ enum r prev s → c ++ rest = s := by
  intro r
  induction r with
  | eps => intro prev s c g rest h; simp only [enum, List.mem_singleton] at h
           obtain ⟨rfl, _, rfl⟩ := Prod.mk.injEq .. ▸ h; simp_all
  | wb => intro prev s c g rest h
          simp only [enum] at h
          split at h <;> simp_all
  | cls p => intro prev s c g rest h
             cases s with
             | nil => simp [enum] at h
             | cons x xs =>
               simp only [enum] at h
               split at h <;> simp_all
  | grp r ih =>
      intro prev s c g rest h
      simp only [enum, List.mem_map] at h
      obtain ⟨⟨c', g', rest'⟩, hm, he⟩ := h
      obtain ⟨rfl, _, rfl⟩ := Prod.mk.injEq .. ▸ he
      exact ih prev s hm
  | seq a b iha ihb =>
      intro prev s c g rest h
      simp only [enum, List.mem_flatMap, List.mem_map] at h
      obtain ⟨⟨c1, g1, r1⟩, h1, ⟨c2, g2, r2⟩, h2, he⟩ := h
      obtain ⟨rfl, _, rfl⟩ := Prod.mk.injEq .. ▸ he
      have e1 := iha prev s h1
      have e2 := ihb _ r1 h2
      simp only at e1 e2
      rw [List.append_assoc, e2, e1]
  | alt a b iha ihb =>
      intro prev s c g rest h
      simp only [enum, List.mem_append] at h
      cases h with
      | inl h => exact iha prev s h
      | inr h => exact ihb prev s h
  | opt a iha =>
      intro prev s c g rest h
      simp only [enum, List.mem_append, List.mem_singleton] at h
      cases h with
      | inl h => exact iha prev s h
      | inr h => obtain ⟨rfl, _, rfl⟩ := Prod.mk.injEq .. ▸ h; simp_all
  | repGE p lo =>
      intro prev s c g rest h
      simp only [enum, List.mem_map] at h
      obtain ⟨k, _, he⟩ := h
      obtain ⟨rfl, _, rfl⟩ := Prod.mk.injEq .. ▸ he
      exact List.take_append_drop k s
  | repRange p lo hi =>
      intro prev s c g rest h
      simp only [enum, List.mem_map] at h
      obtain ⟨k, _, he⟩ := h
      obtain ⟨rfl, _, rfl⟩ := Prod.mk.injEq .. ▸ he
      exact List.take_append_drop k s

theorem mem_enum_wb {prev : Option Char} {s : Str}
    (h : atBoundary prev s = true) : (([] : Str), ([] : List Str), s) ∈ enum .wb prev s := by
  simp [enum, h]

theorem mem_enum_cls {p : Char → Bool} {prev : Option Char} {ch : Char} {cs : Str}
    (h : p ch = true) : ([ch], ([] : List Str), cs) ∈ enum (.cls p) prev (ch :: cs) := by
  simp [enum, h]

theorem mem_enum_seq {a b : RE} {prev : Option Char} {s : Str}
    {c1 c2 : Str} {g1 g2 : List Str} {r1 r2 : Str}
    (h1 : (c1, g1, r1) ∈ enum a prev s)
    (h2 : (c2, g2, r2) ∈ enum b (if c1.isEmpty then prev else c1.getLast?) r1) :
    (c1 ++ c2, g1 ++ g2, r2) ∈ enum (.seq a b) prev s := by
  simp only [enum, List.mem_flatMap, List.mem_map]
  exact ⟨(c1, g1, r1), h1, (c2, g2, r2), h2, rfl⟩

theorem mem_enum_repGE {p : Char → Bool} {lo : Nat} {prev : Option Char}
    {c rest : Str} (hall : c.all p) (hlen : lo ≤ c.length) :
    (c, ([] : List Str), rest) ∈ enum (.repGE p lo) prev (c ++ rest) := by
  simp only [enum, List.mem_map]
  refine ⟨c.length, mem_downFrom hlen (length_le_countLeading_append rest hall), ?_⟩
  rw [List.take_left, List.drop_left]

theorem mem_enum_wb_inv {prev : Option Char} {s : Str} {c : Str} {g : List Str} {rest : Str}
    (h : (c, g, rest) ∈ enum .wb prev s) :
    c = [] ∧ g = [] ∧ rest = s ∧ atBoundary prev s = true := by
  simp only [enum] at h
  split at h <;> simp_all

theorem mem_enum_cls_inv {p : Char → Bool} {prev : Option Char} {s : Str}
    {c : Str} {g : List Str} {rest : Str}
    (h : (c, g, rest) ∈ enum (.cls p) prev s) :
    ∃ ch, c = [ch] ∧ p ch = true ∧ g = [] ∧ s = ch :: rest := by
  cases s with
  | nil => simp [enum] at h
  | cons x xs =>
    simp only [enum] at h
    split at h <;> simp_all

theorem mem_enum_seq_inv {a b : RE} {prev : Option Char} {s : Str}
    {c : Str} {g : List Str} {rest : Str}
    (h : (c, g, rest) ∈ enum (.seq a b) prev s) :
    ∃ c1 g1 r1 c2 g2,
      (c1, g1, r1) ∈ enum a prev s ∧
      (c2, g2, rest) ∈ enum b (if c1.isEmpty then prev else c1.getLast?) r1 ∧
      c = c1 ++ c2 ∧ g = g1 ++ g2 := by
  simp only [enum, List.mem_flatMap, List.mem_map] at h
  obtain ⟨⟨c1, g1, r1⟩, h1, ⟨c2, g2, r2⟩, h2, he⟩ := h
  obtain ⟨e1, e2, e3⟩ := Prod.mk.injEq .. ▸ he
  exact ⟨c1, g1, r1, c2, g2, h1, by simp_all, e1.symm, by simp_all⟩

theorem mem_enum_repGE_inv {p : Char → Bool} {lo : Nat} {prev : Option Char} {s : Str}
    {c : Str} {g : List Str} {rest : Str}
    (h : (c, g, rest) ∈ enum (.repGE p lo) prev s) :
    c.all p = true ∧ lo ≤ c.length ∧ g = [] := by
  simp only [enum, List.mem_map] at h
  obtain ⟨k, hk, he⟩ := h
  obtain ⟨hlo, hm⟩ := of_mem_downFrom hk
  obtain ⟨e1, e2, e3⟩ := Prod.mk.injEq .. ▸ he
  have hkl : k ≤ s.length := le_trans hm (countLeading_le_length p s)
  constructor
  · rw [← e1]; exact all_take_of_le_countLeading hm
  · constructor
    · rw [← e1, List.length_take]; omega
    · simp_all

theorem emailLocalCls_ne_at {c : Char} (h : emailLocalCls c = true) : c ≠ '@' := by
  rintro rfl; exact absurd h (by decide)

theorem emailDomainCls_ne_at {c : Char} (h : emailDomainCls c = true) : c ≠ '@' := by
  rintro rfl; exact absurd h (by decide)

theorem emailLabelCls_ne_at {c : Char} (h : emailLabelCls c = true) : c ≠ '@' := by
  rintro rfl; exact absurd h (by decide)

/-- Structure of any match of the email pattern: a non-empty local part, a
single `'@'`, and a domain part, with `'@'` excluded from both sides by the
character classes. -/
theorem email_match_structure {prev : Option Char} {s c : Str} {g : List Str} {rest : Str}
    (h : (c, g, rest) ∈ enum emailRE prev s) :
    ∃ loc dom, c = loc ++ '@' :: dom ∧ loc ≠ [] ∧
      (∀ x ∈ loc, x ≠ '@') ∧ (∀ x ∈ dom, x ≠ '@') := by
  obtain ⟨c1, g1, r1, c2, g2, h1, h2, rfl, rfl⟩ := mem_enum_seq_inv h
  obtain ⟨rfl, rfl, rfl, -⟩ := mem_enum_wb_inv h1
  obtain ⟨loc, gl, r2, c3, g3, hloc, h3, rfl, rfl⟩ := mem_enum_seq_inv h2
  obtain ⟨hlocall, hloclen, rfl⟩ := mem_enum_repGE_inv hloc
  obtain ⟨a1, ga, r3, c4, g4, hat, h4, rfl, rfl⟩ := mem_enum_seq_inv h3
  obtain ⟨ch, rfl, hch, rfl, -⟩ := mem_enum_cls_inv hat
  have hch' : ch = '@' := by simpa using hch
  subst hch'
  obtain ⟨dm, gd, r4, c5, g5, hdm, h5, rfl, rfl⟩ := mem_enum_seq_inv h4
  obtain ⟨hdmall, hdmlen, rfl⟩ := mem_enum_repGE_inv hdm
  obtain ⟨d1, gdot, r5, c6, g6, hdot, h6, rfl, rfl⟩ := mem_enum_seq_inv h5
  obtain ⟨chd, rfl, hchd, rfl, -⟩ := mem_enum_cls_inv hdot
  have hchd' : chd = '.' := by simpa using hchd
  subst hchd'
  obtain ⟨lab, glab, r6, c7, g7, hlab, h7, rfl, rfl⟩ := mem_enum_seq_inv h6
  obtain ⟨hlaball, hlablen, rfl⟩ := mem_enum_repGE_inv hlab
  obtain ⟨rfl, rfl, rfl, -⟩ := mem_enum_wb_inv h7
  refine ⟨loc, dm ++ '.' :: (lab ++ []), by simp, ?_, ?_, ?_⟩
  · intro hnil; rw [hnil] at hloclen; simp at hloclen
  · intro x hx
    exact emailLocalCls_ne_at (List.all_eq_true.mp hlocall x hx)
  · intro x hx
    simp only [List.append_nil, List.mem_append, List.mem_cons] at hx
    rcases hx with hx | hx | hx
    · exact emailDomainCls_ne_at (List.all_eq_true.mp hdmall x hx)
    · rintro rfl; simp at hx
    · exact emailLabelCls_ne_at (List.all_eq_true.mp hlaball x hx)

theorem pySplit_of_no_sep {sep : Char} :
    ∀ {b : Str}, (∀ x ∈ b, x ≠ sep) → pySplit sep b = [b] := by
  intro b
  induction b with
  | nil => intro _; rfl
  | cons c cs ih =>
    intro hb
    have hc : ¬ (c = sep) := hb c (List.mem_cons_self c cs)
    have hcs := ih (fun x hx => hb x (List.mem_cons_of_mem c hx))
    simp only [pySplit, if_neg hc, hcs]

theorem pySplit_append_sep {sep : Char} :
    ∀ {a b : Str}, (∀ x ∈ a, x ≠ sep) →
      pySplit sep (a ++ sep :: b) = a :: pySplit sep b := by
  intro a
  induction a with
  | nil => intro b _; simp [pySplit]
  | cons c cs ih =>
    intro b ha
    have hc : ¬ (c = sep) := ha c (List.mem_cons_self c cs)
    have hcs := @ih b (fun x hx => ha x (List.mem_cons_of_mem c hx))
    simp only [List.cons_append, pySplit, if_neg hc, List.append_eq, hcs]

/-- On every match of the email pattern, the replacement callback succeeds and
produces the fixed token followed by `'@'` and the matched domain. -/
theorem emailRepl_of_match {prev : Option Char} {s c : Str} {g : List Str} {rest : Str}
    (h : (c, g, rest) ∈ enum emailRE prev s) :
    ∃ loc dom, c = loc ++ '@' :: dom ∧
      emailRepl c g = some ("[EMAIL_REDACTED]@".data ++ dom) := by
  obtain ⟨loc, dom, rfl, -, hloc, hdom⟩ := email_match_structure h
  refine ⟨loc, dom, rfl, ?_⟩
  rw [emailRepl, pySplit_append_sep hloc, pySplit_of_no_sep hdom]
  rfl

theorem subGo_isSome {r : RE} {repl : Str → List Str → Option Str}
    (hrepl : ∀ (prev : Option Char) (s c : Str) (g : List Str) (rest : Str),
      (c, g, rest) ∈ enum r prev s → (repl c g).isSome = true) :
    ∀ (fuel : Nat) (prev : Option Char) (s : Str), s.length < fuel →
      (subGo r repl fuel prev s).isSome = true := by
  intro fuel
  induction fuel with
  | zero => intro prev s h; omega
  | succ f ih =>
    intro prev s hlen
    cases hm : reMatch r prev s with
    | none =>
      cases s with
      | nil => simp [subGo, hm]
      | cons d ds =>
        obtain ⟨t, ht⟩ := Option.isSome_iff_exists.mp
          (ih (some d) ds (by simp only [List.length_cons] at hlen; omega))
        simp [subGo, hm, ht]
    | some m =>
      obtain ⟨c, g, rest⟩ := m
      have hmem : (c, g, rest) ∈ enum r prev s := mem_of_head?_eq_some hm
      obtain ⟨rep, hrep⟩ := Option.isSome_iff_exists.mp (hrepl prev s c g rest hmem)
      have happ : c ++ rest = s := enum_append r prev s hmem
      cases hc : c.isEmpty with
      | true =>
        cases s with
        | nil => simp [subGo, hm, hrep, hc]
        | cons d ds =>
          obtain ⟨t, ht⟩ := Option.isSome_iff_exists.mp
            (ih (some d) ds (by simp only [List.length_cons] at hlen; omega))
          simp [subGo, hm, hrep, hc, ht]
      | false =>
        have hcne : c ≠ [] := by
          intro h0; rw [h0] at hc; simp at hc
        have hrest : rest.length < f := by
          have := congrArg List.length happ
          simp only [List.length_append] at this
          have hcpos : 0 < c.length := List.length_pos.mpr hcne
          omega
        obtain ⟨t, ht⟩ := Option.isSome_iff_exists.mp (ih c.getLast? rest hrest)
        simp [subGo, hm, hrep, hc, ht]

/-- The constant replacements of the phone/ssn/credit-card/ip/address passes
never fail. -/
theorem reSub_const_isSome (r : RE) (tok : Str) (content : Str) :
    (reSub r (fun _ _ => some tok) content).isSome = true := by
  refine subGo_isSome ?_ (content.length + 1) none content (Nat.lt_succ_self _)
  intro _ _ _ _ _ _
  rfl

/-- The email replacement callback never fails on an email match, so the email
pass never fails. -/
theorem reSub_email_isSome (content : Str) :
    (reSub emailRE emailRepl content).isSome = true := by
  refine subGo_isSome ?_ (content.length + 1) none content (Nat.lt_succ_self _)
  intro prev s c g rest hmem
  obtain ⟨loc, dom, -, he⟩ := emailRepl_of_match hmem
  rw [he]; rfl

theorem sanitizePass_isSome :
    ∀ pr ∈ PATTERNS, ∀ t : Str, (sanitizePass pr.1 pr.2 t).isSome = true := by
  intro pr hpr t
  simp only [PATTERNS, List.mem_cons, List.not_mem_nil, or_false] at hpr
  rcases hpr with rfl | rfl | rfl | rfl | rfl | rfl
  · exact reSub_email_isSome t
  · exact reSub_const_isSome phoneRE _ t
  · exact reSub_const_isSome ssnRE _ t
  · exact reSub_const_isSome cardRE _ t
  · exact reSub_const_isSome ipRE _ t
  · exact reSub_const_isSome addressRE _ t

theorem foldl_sanitizePass_isSome :
    ∀ (l : List (String × RE)), (∀ pr ∈ l, ∀ t : Str, (sanitizePass pr.1 pr.2 t).isSome = true) →
      ∀ acc : Option Str, acc.isSome = true →
        (l.foldl (fun acc pr => acc.bind (sanitizePass pr.1 pr.2)) acc).isSome = true := by
  intro l
  induction l with
  | nil => intro _ acc hacc; simpa using hacc
  | cons pr l' ih =>
    intro hl acc hacc
    simp only [List.foldl_cons]
    refine ih (fun q hq t => hl q (List.mem_cons_of_mem pr hq) t) _ ?_
    obtain ⟨a, rfl⟩ := Option.isSome_iff_exists.mp hacc
    simpa using hl pr (List.mem_cons_self pr l') a

/-- `sanitize` is total: the modelled `IndexError` branch is unreachable. -/
theorem sanitize_isSome (content : Str) : (sanitize content).isSome = true :=
  foldl_sanitizePass_isSome PATTERNS sanitizePass_isSome (some content) rfl

/-- If some position of the input carries a match, the left-to-right scan of
`findAllGo` reports at least one match (possibly an earlier one). -/
theorem findAllGo_ne_nil {r : RE} :
    ∀ (pre : Str) (fuel : Nat) (prev : Option Char) (mid post : Str) (g : List Str),
      (pre ++ mid ++ post).length < fuel →
      (mid, g, post) ∈ enum r (if pre.isEmpty then prev else pre.getLast?) (mid ++ post) →
      findAllGo r fuel prev (pre ++ mid ++ post) ≠ [] := by
  intro pre
  induction pre with
  | nil =>
    intro fuel prev mid post g hlen hmem
    cases fuel with
    | zero => simp at hlen
    | succ f =>
      simp only [List.isEmpty_nil, if_true] at hmem
      simp only [List.nil_append] at hlen ⊢
      obtain ⟨m, hm⟩ : ∃ m, reMatch r prev (mid ++ post) = some m := by
        rw [reMatch]
        cases he : enum r prev (mid ++ post) with
        | nil => rw [he] at hmem; exact absurd hmem (List.not_mem_nil _)
        | cons x xs => exact ⟨x, rfl⟩
      obtain ⟨c, g', rest⟩ := m
      cases hc : c.isEmpty with
      | true =>
        have hc' : c = [] := List.isEmpty_iff.mp hc
        cases hs : mid ++ post with
        | nil => rw [hs] at hm; simp [findAllGo, hm, hc']
        | cons d ds => rw [hs] at hm; simp [findAllGo, hm, hc']
      | false => simp [findAllGo, hm, hc]
  | cons a pre' ih =>
    intro fuel prev mid post g hlen hmem
    cases fuel with
    | zero => simp at hlen
    | succ f =>
      rw [show (a :: pre') ++ mid ++ post = a :: (pre' ++ (mid ++ post)) by simp]
      cases hm : reMatch r prev (a :: (pre' ++ (mid ++ post))) with
      | some m =>
        obtain ⟨c, g', rest⟩ := m
        cases hc : c.isEmpty with
        | true => simp [findAllGo, hm, hc]
        | false => simp [findAllGo, hm, hc]
      | none =>
        have hlen' : (pre' ++ mid ++ post).length < f := by
          simp only [List.cons_append, List.length_cons, List.length_append] at hlen ⊢
          omega
        have hpeq : (if (a :: pre').isEmpty then prev else (a :: pre').getLast?) =
            (if pre'.isEmpty then (some a) else pre'.getLast?) := by
          cases pre' with
          | nil => simp
          | cons b bs => simp [List.getLast?_cons_cons]
        rw [hpeq] at hmem
        have hrec := ih f (some a) mid post g hlen' hmem
        simp only [findAllGo, hm]
        simpa only [List.append_assoc] using hrec

/-- A declarative email occurrence yields a match of `emailRE` in the
enumeration anchored at its start position. -/
theorem email_enum_of_parts {prevc : Option Char} {loc dom lab post : Str}
    (hloc : loc ≠ []) (hlocall : loc.all emailLocalCls = true)
    (hdom : dom ≠ []) (hdomall : dom.all emailDomainCls = true)
    (hlab : 2 ≤ lab.length) (hlaball : lab.all emailLabelCls = true)
    (hb1 : atBoundary prevc ((loc ++ '@' :: (dom ++ '.' :: lab)) ++ post) = true)
    (hb2 : atBoundary lab.getLast? post = true) :
    ((loc ++ '@' :: (dom ++ '.' :: lab)), ([] : List Str), post) ∈
      enum emailRE prevc ((loc ++ '@' :: (dom ++ '.' :: lab)) ++ post) := by
  have hlabne : lab ≠ [] := by intro h0; rw [h0] at hlab; simp at hlab
  have hb1' : atBoundary prevc (loc ++ '@' :: (dom ++ '.' :: (lab ++ post))) = true := by
    simpa only [List.append_assoc, List.cons_append] using hb1
  have hifl : (if lab.isEmpty then (some '.') else lab.getLast?) = lab.getLast? := by
    cases lab with
    | nil => exact absurd rfl hlabne
    | cons x xs => rfl
  have W7 : (([] : Str), ([] : List Str), post) ∈
      enum RE.wb (if lab.isEmpty then (some '.') else lab.getLast?) post := by
    rw [hifl]; exact mem_enum_wb hb2
  have H : (([] : Str) ++ (loc ++ (['@'] ++ (dom ++ (['.'] ++ (lab ++ []))))),
      ([] : List Str) ++ ([] ++ ([] ++ ([] ++ ([] ++ ([] ++ []))))), post) ∈
      enum emailRE prevc (loc ++ '@' :: (dom ++ '.' :: (lab ++ post))) := by
    refine mem_enum_seq (mem_enum_wb hb1') ?_
    refine mem_enum_seq (mem_enum_repGE hlocall (List.length_pos.mpr hloc)) ?_
    refine mem_enum_seq (mem_enum_cls ?_) ?_
    · simp
    refine mem_enum_seq (mem_enum_repGE hdomall (List.length_pos.mpr hdom)) ?_
    refine mem_enum_seq (mem_enum_cls ?_) ?_
    · simp
    exact mem_enum_seq (mem_enum_repGE hlaball hlab) W7
  simpa only [List.append_assoc, List.cons_append, List.append_nil,
    List.nil_append] using H

theorem reFindAll_email_ne_nil {s : Str} (h : ContainsEmailMatch s) :
    reFindAll emailRE s ≠ [] := by
  obtain ⟨pre, loc, dom, lab, post, rfl, hloc, hlocall, hdom, hdomall, hlab, hlaball,
    hb1, hb2⟩ := h
  have hif : (if pre.isEmpty then (none : Option Char) else pre.getLast?) = pre.getLast? := by
    cases pre with
    | nil => rfl
    | cons x xs => rfl
  have hmem := email_enum_of_parts hloc hlocall hdom hdomall hlab hlaball hb1 hb2
  refine findAllGo_ne_nil pre _ none (loc ++ '@' :: (dom ++ '.' :: lab)) post []
    (Nat.lt_succ_self _) ?_
  rw [hif]
  exact hmem

theorem detect_email_of_contains {s : Str} (h : ContainsEmailMatch s) :
    detectPatterns s ≠ [] ∧ "email" ∈ (detectPatterns s).map (fun d => d.1) := by
  have hne := reFindAll_email_ne_nil h
  rw [detectPatterns]
  simp only [PATTERNS, List.flatMap_cons, List.flatMap_nil, List.append_nil]
  cases hms : reFindAll emailRE s with
  | nil => exact absurd hms hne
  | cons m0 ms' =>
    rw [renderMatches]
    split
    · exact ⟨by simp, by simp⟩
    · exact ⟨by simp, by simp⟩

/-! ### Claim theorems -/

/-- C6: when the engine is disabled, `validate` returns exactly
`has_pii=false, confidence=1.0, safe_to_send=true, pii_types=[], details=[]`,
regardless of the input content. -/
theorem C6_disabled_bypass (v : PIIValidator) (content : Str)
    (hen : v.enabled = false) :
    validate v content =
      { has_pii := false, pii_types := [], confidence := 1,
        details := [], safe_to_send := true } := by
  simp [validate, hen]

theorem C6_disabled_bypass_witness :
    (PIIValidator.mk false (4/5)).enabled = false ∧
    validate ⟨false, 4/5⟩ "Contact me at test@example.com".data =
      { has_pii := false, pii_types := [], confidence := 1,
        details := [], safe_to_send := true } :=
  ⟨rfl, C6_disabled_bypass ⟨false, 4/5⟩ "Contact me at test@example.com".data rfl⟩

/-- C7: for every input and both engine configurations,
`has_pii = (len(details) > 0)` and `len(details) = len(pii_types)`. -/
theorem C7_result_invariants (v : PIIValidator) (content : Str) :
    (validate v content).has_pii = decide (0 < (validate v content).details.length) ∧
    (validate v content).details.length = (validate v content).pii_types.length := by
  cases hen : v.enabled with
  | false => simp [validate, hen]
  | true => simp [validate, hen]

/-- C9: `sanitize` is the sequential composition of the six per-category
passes in the fixed registry order email, phone, ssn, credit_card,
ip_address, address, each pass running on the output of the previous pass. -/
theorem C9_sanitize_is_sequential_composition (content : Str) :
    sanitize content = sanitizeSpecComposition content := rfl

/-- C3: when the engine is enabled, `confidence` is 1.0 exactly when some
detector match was found (else 0.0), and
`safe_to_send = not has_pii or confidence < threshold`. -/
theorem C3_confidence_and_safe_formula (v : PIIValidator) (content : Str)
    (hen : v.enabled = true) :
    (validate v content).confidence = (if detectPatterns content = [] then 0 else 1) ∧
    (validate v content).safe_to_send =
      (!(validate v content).has_pii ||
        decide ((validate v content).confidence < v.threshold)) := by
  cases hd : detectPatterns content with
  | nil => simp [validate, hen, hd]
  | cons x xs => simp [validate, hen, hd]

theorem C3_confidence_and_safe_formula_witness :
    (PIIValidator.mk true (4/5)).enabled = true ∧
    ((validate ⟨true, 4/5⟩ "Contact me at test@example.com".data).confidence =
        (if detectPatterns "Contact me at test@example.com".data = [] then 0 else 1) ∧
      (validate ⟨true, 4/5⟩ "Contact me at test@example.com".data).safe_to_send =
        (!(validate ⟨true, 4/5⟩ "Contact me at test@example.com".data).has_pii ||
          decide ((validate ⟨true, 4/5⟩ "Contact me at test@example.com".data).confidence <
            (PIIValidator.mk true (4/5)).threshold))) :=
  ⟨rfl, C3_confidence_and_safe_formula ⟨true, 4/5⟩ "Contact me at test@example.com".data rfl⟩

/-- C2 is false as stated at threshold exactly 1.0: with the engine enabled,
`threshold = 1.0 ≥ 1.0`, and an input carrying PII, `validate` returns
`safe_to_send = false` (the claim asserts `true`). -/
theorem C2_threshold_one_counterexample :
    (1 : ℚ) ≤ (PIIValidator.mk true 1).threshold ∧
    (validate ⟨true, 1⟩ "a@b.cc".data).has_pii = true ∧
    (validate ⟨true, 1⟩ "a@b.cc".data).confidence = 1 ∧
    (validate ⟨true, 1⟩ "a@b.cc".data).safe_to_send = false := by
  refine ⟨le_refl 1, ?_, ?_, ?_⟩ <;> decide

/-- C2 (amended): if the engine is enabled and the threshold is strictly
greater than 1.0, every input is reported safe to send, even when PII is
detected; at threshold exactly 1.0 detected PII is reported unsafe. -/
theorem C2_threshold_above_one_always_safe (v : PIIValidator) (content : Str)
    (hen : v.enabled = true) (hth : (1 : ℚ) < v.threshold) :
    (validate v content).safe_to_send = true := by
  cases hd : detectPatterns content with
  | nil => simp [validate, hen, hd]
  | cons x xs => simp [validate, hen, hd, hth]

theorem C2_threshold_above_one_always_safe_witness :
    (PIIValidator.mk true 2).enabled = true ∧ (1 : ℚ) < (PIIValidator.mk true 2).threshold ∧
    (validate ⟨true, 2⟩ "a@b.cc".data).safe_to_send = true :=
  ⟨rfl, by norm_num,
    C2_threshold_above_one_always_safe ⟨true, 2⟩ "a@b.cc".data rfl (by norm_num)⟩

/-- C1: evaluation at the failing input. The phone pattern's separators are
`[-.]`, which does not include a space, so in `"Call me at (415) 555-1212"`
neither `(415) 555-1212` (space after the closing parenthesis) nor
`555-1212` (too few digits) matches; `sanitize` returns the input unchanged
and no `[PHONE_REDACTED]` appears, although the repository's own
`test_sanitizes_phone` asserts it does. -/
theorem C1_phone_example_not_redacted :
    sanitize "Call me at (415) 555-1212".data = some "Call me at (415) 555-1212".data ∧
    reFindAll phoneRE "Call me at (415) 555-1212".data = [] ∧
    hasSub "[PHONE_REDACTED]".data "Call me at (415) 555-1212".data = false := by
  refine ⟨by decide, by decide, by decide⟩

/-- C4: when the engine is enabled, every input containing a substring matched
by the email pattern yields `has_pii = true` with `"email"` among the reported
`pii_types`. -/
theorem C4_email_always_detected (v : PIIValidator) (content : Str)
    (hen : v.enabled = true) (hc : ContainsEmailMatch content) :
    (validate v content).has_pii = true ∧
    "email" ∈ (validate v content).pii_types := by
  obtain ⟨hne, hmem⟩ := detect_email_of_contains hc
  have hlen : 0 < (detectPatterns content).length := List.length_pos.mpr hne
  constructor
  · simp [validate, hen, hlen]
  · simpa [validate, hen] using hmem

theorem C4_email_always_detected_witness :
    (PIIValidator.mk true (4/5)).enabled = true ∧
    ContainsEmailMatch "Contact me at test@example.com".data ∧
    (validate ⟨true, 4/5⟩ "Contact me at test@example.com".data).has_pii = true ∧
    "email" ∈ (validate ⟨true, 4/5⟩ "Contact me at test@example.com".data).pii_types := by
  have hc : ContainsEmailMatch "Contact me at test@example.com".data :=
    ⟨"Contact me at ".data, "test".data, "example".data, "com".data, [], by decide⟩
  exact ⟨rfl, hc, C4_email_always_detected ⟨true, 4/5⟩ _ rfl hc⟩

/-- C5: every match of the email pattern is replaced by the fixed token
followed by `'@'` and the domain of the original matched substring; in
particular `sanitize "contact me at a@b.com"` keeps `@b.com` and no longer
contains `a@b.com`. -/
theorem C5_email_redaction_preserves_domain :
    (∀ (prev : Option Char) (s c : Str) (g : List Str) (rest : Str),
      (c, g, rest) ∈ enum emailRE prev s →
      ∃ loc dom, c = loc ++ '@' :: dom ∧
        emailRepl c g = some ("[EMAIL_REDACTED]@".data ++ dom)) ∧
    sanitize "contact me at a@b.com".data =
      some "contact me at [EMAIL_REDACTED]@b.com".data ∧
    hasSub "@b.com".data "contact me at [EMAIL_REDACTED]@b.com".data = true ∧
    hasSub "a@b.com".data "contact me at [EMAIL_REDACTED]@b.com".data = false := by
  exact ⟨fun prev s c g rest h => emailRepl_of_match h, by decide, by decide, by decide⟩

theorem C5_email_redaction_preserves_domain_witness :
    (("a@b.cc".data, ([] : List Str), ([] : Str)) ∈ enum emailRE none "a@b.cc".data) ∧
    (∃ loc dom, "a@b.cc".data = loc ++ '@' :: dom ∧
      emailRepl "a@b.cc".data [] = some ("[EMAIL_REDACTED]@".data ++ dom)) :=
  ⟨by decide,
    C5_email_redaction_preserves_domain.1 none "a@b.cc".data "a@b.cc".data [] [] (by decide)⟩

/-- C8 is false as stated: `sanitize` is not idempotent on every input.  On
`"a@b.cc@d.ee"` the email pass matches only `a@b.cc` (the scan resumes after
the match), leaving `[EMAIL_REDACTED]@b.cc@d.ee`, in which a second
application matches the freshly exposed `b.cc@d.ee`. -/
theorem C8_not_idempotent_counterexample :
    (sanitize "a@b.cc@d.ee".data).bind sanitize ≠ sanitize "a@b.cc@d.ee".data := by
  decide

/-- C8 (amended): `sanitize` is idempotent on representative already-redacted
inputs — applying it twice to texts carrying email/phone/ssn/card PII of the
spec's representative shapes gives the same result as applying it once — but
not for every input text. -/
theorem C8_idempotent_on_representative_inputs :
    (sanitize "Contact a@b.cc, SSN 123-45-6789".data).bind sanitize =
      sanitize "Contact a@b.cc, SSN 123-45-6789".data ∧
    (sanitize "Call 415-555-1212 or card 4242 4242 4242 4242".data).bind sanitize =
      sanitize "Call 415-555-1212 or card 4242 4242 4242 4242".data := by
  exact ⟨by decide, by decide⟩

/-- C10: every substring matched by the email pattern contains exactly one
`'@'`; splitting the match on `'@'` and taking index 1 is therefore always in
range and yields the entire domain, and the modelled `IndexError` branch of
`sanitize` is unreachable for every input. -/
theorem C10_email_at_split_always_in_range :
    (∀ (prev : Option Char) (s c : Str) (g : List Str) (rest : Str),
      (c, g, rest) ∈ enum emailRE prev s →
      c.count '@' = 1 ∧
      ∃ loc dom, c = loc ++ '@' :: dom ∧ (pySplit '@' c).get? 1 = some dom) ∧
    ∀ content : Str, (sanitize content).isSome = true := by
  constructor
  · intro prev s c g rest h
    obtain ⟨loc, dom, rfl, hlocne, hlocna, hdomna⟩ := email_match_structure h
    constructor
    · have h1 : loc.count '@' = 0 :=
        List.count_eq_zero.mpr (fun hmem => hlocna '@' hmem rfl)
      have h2 : dom.count '@' = 0 :=
        List.count_eq_zero.mpr (fun hmem => hdomna '@' hmem rfl)
      simp [List.count_append, List.count_cons, h1, h2]
    · refine ⟨loc, dom, rfl, ?_⟩
      rw [pySplit_append_sep hlocna, pySplit_of_no_sep hdomna]
      rfl
  · exact sanitize_isSome

theorem C10_email_at_split_always_in_range_witness :
    (("x@y.org".data, ([] : List Str), ([] : Str)) ∈ enum emailRE none "x@y.org".data) ∧
    ("x@y.org".data.count '@' = 1 ∧
      ∃ loc dom, "x@y.org".data = loc ++ '@' :: dom ∧
        (pySplit '@' "x@y.org".data).get? 1 = some dom) :=
  ⟨by decide,
    C10_email_at_split_always_in_range.1 none "x@y.org".data "x@y.org".data [] [] (by decide)⟩

end SmartEmail
